import Mathlib

/-!
Shallow embedding of the EternaLog contract (`src/lib.rs`, ink! module `eternalog`)
and verification of its specification claims.

Modelling conventions:
* `u64`/`u32`/`Balance = u128` values are `Nat`; saturating arithmetic is made
  explicit via `satAdd64` / `satAdd128` with the exact numeric ceilings.
* `AccountId` and `BlockNumber` are `Nat`.
* Rust `String` is `List Char`; `String::contains` is `containsSub`.
* `ink::storage::Mapping` is a function to `Option`; `Mapping::insert` is a
  pointwise functional update.
* The host environment (`self.env()`) is an explicit `Env` record carrying the
  caller, the block number and the transferred value of one call.
* Each `&mut self` message returns its result together with the post-state; an
  early `return Err(..)` returns the state unchanged, exactly as in the source
  where the error returns occur before any mutation.
-/

/-- Largest u64 value, `u64::MAX = 2^64 - 1`. -/
def U64MAX : Nat := 18446744073709551615

/-- Largest u128 value (ink `Balance`), `u128::MAX = 2^128 - 1`. -/
def U128MAX : Nat := 340282366920938463463374607431768211455

/-- Rust `u64::saturating_add`. -/
def satAdd64 (a b : Nat) : Nat := min (a + b) U64MAX

/-- Rust `u128::saturating_add` (used for `Balance`). -/
def satAdd128 (a b : Nat) : Nat := min (a + b) U128MAX

/-- ink `AccountId`, abstracted to a decidable identity. -/
abbrev AccountId := Nat

/-- ink `Balance` (u128). -/
abbrev Balance := Nat

/-- ink `BlockNumber`. -/
abbrev BlockNumber := Nat

/-- Host-supplied execution context of one contract call: `self.env().caller()`,
`self.env().block_number()`, `self.env().transferred_value()`. -/
structure Env where
  caller : AccountId
  blockNumber : BlockNumber
  transferredValue : Balance

/-- The contract's error enum (`enum Error` in `src/lib.rs`). -/
inductive Error where
  | InsufficientBalance
  | LogNotFound
  | InvalidLogType
  | EmptyLogData
  | Unauthorized
deriving DecidableEq

/-- A log entry as returned by `get_log` (`struct LogEntry`). -/
structure LogEntry where
  id : Nat
  data : List Char
  log_type : Nat
  author : AccountId
  timestamp : BlockNumber
deriving DecidableEq

/-- The contract storage (`struct Eternalog`). The `Mapping` fields are modelled
as functions to `Option`. -/
structure Eternalog where
  owner : AccountId
  next_log_id : Nat
  storage_fee : Balance
  total_logs : Nat
  total_fees_burned : Balance
  log_data : Nat → Option (List Char)
  log_types : Nat → Option Nat
  log_authors : Nat → Option AccountId
  log_timestamps : Nat → Option BlockNumber
  logs_by_type : Nat → Option (List Nat)
  logs_by_author : AccountId → Option (List Nat)

/-- Constructor `Eternalog::new(storage_fee)`: owner is the deploying caller,
the ID counter starts at 1, totals at 0, all mappings empty. -/
def Eternalog.new (env : Env) (storage_fee : Balance) : Eternalog :=
  { owner := env.caller
    next_log_id := 1
    storage_fee := storage_fee
    total_logs := 0
    total_fees_burned := 0
    log_data := fun _ => none
    log_types := fun _ => none
    log_authors := fun _ => none
    log_timestamps := fun _ => none
    logs_by_type := fun _ => none
    logs_by_author := fun _ => none }

/-- Message `store_log(data, log_type)` (payable). Validates inputs, checks the
payment, stores the four entry components, appends to the two indices, and
advances the counters with saturating arithmetic. Returns the assigned ID or an
error, paired with the post-state. -/
def store_log (env : Env) (s : Eternalog) (data : List Char) (log_type : Nat) :
    Except Error Nat × Eternalog :=
  if data = [] then (Except.error Error.EmptyLogData, s)
  else if log_type = 0 then (Except.error Error.InvalidLogType, s)
  else if env.transferredValue < s.storage_fee then
    (Except.error Error.InsufficientBalance, s)
  else
    let caller := env.caller
    let current_block := env.blockNumber
    let log_id := s.next_log_id
    let type_logs := (s.logs_by_type log_type).getD [] ++ [log_id]
    let author_logs := (s.logs_by_author caller).getD [] ++ [log_id]
    (Except.ok log_id,
      { s with
        log_data := fun i => if i = log_id then some data else s.log_data i
        log_types := fun i => if i = log_id then some log_type else s.log_types i
        log_authors := fun i => if i = log_id then some caller else s.log_authors i
        log_timestamps := fun i =>
          if i = log_id then some current_block else s.log_timestamps i
        logs_by_type := fun t =>
          if t = log_type then some type_logs else s.logs_by_type t
        logs_by_author := fun a =>
          if a = caller then some author_logs else s.logs_by_author a
        next_log_id := satAdd64 s.next_log_id 1
        total_logs := satAdd64 s.total_logs 1
        total_fees_burned := satAdd128 s.total_fees_burned env.transferredValue })

/-- Message `get_log(log_id)`: succeeds only when all four per-entry mappings
hold a value for the ID. -/
def get_log (s : Eternalog) (log_id : Nat) : Except Error LogEntry :=
  match s.log_data log_id, s.log_types log_id,
      s.log_authors log_id, s.log_timestamps log_id with
  | some data, some log_type, some author, some timestamp =>
    Except.ok { id := log_id, data := data, log_type := log_type,
                author := author, timestamp := timestamp }
  | _, _, _, _ => Except.error Error.LogNotFound

/-- Message `get_logs_by_type(log_type)`. -/
def get_logs_by_type (s : Eternalog) (log_type : Nat) : List Nat :=
  (s.logs_by_type log_type).getD []

/-- Message `get_logs_by_author(author)`. -/
def get_logs_by_author (s : Eternalog) (author : AccountId) : List Nat :=
  (s.logs_by_author author).getD []

/-- Rust `a == b && is_prefix_of rest` test used by `containsSub`: does the
second list start with the first? -/
def isPrefixCh : List Char → List Char → Bool
  | [], _ => true
  | _ :: _, [] => false
  | c :: cs, d :: ds => c == d && isPrefixCh cs ds

/-- Rust `String::contains(&pat)`: `pat` occurs in `hay` as a contiguous
substring. -/
def containsSub : (hay pat : List Char) → Bool
  | [], pat => isPrefixCh pat []
  | c :: rest, pat => isPrefixCh pat (c :: rest) || containsSub rest pat

/-- Message `search_logs_by_content(search_term)`: scans IDs `1..next_log_id`
(exclusive upper bound, as the Rust `for log_id in 1..self.next_log_id`),
keeping those whose stored data contains the term. -/
def search_logs_by_content (s : Eternalog) (search_term : List Char) : List Nat :=
  (List.range' 1 (s.next_log_id - 1)).filter fun log_id =>
    match s.log_data log_id with
    | some data => containsSub data search_term
    | none => false

/-- Message `get_logs_by_type_and_author(log_type, author)`: linear-containment
intersection keeping the order of the type list. -/
def get_logs_by_type_and_author (s : Eternalog) (log_type : Nat)
    (author : AccountId) : List Nat :=
  let type_logs := get_logs_by_type s log_type
  let author_logs := get_logs_by_author s author
  type_logs.filter fun log_id => author_logs.contains log_id

/-- Message `get_storage_fee()`. -/
def get_storage_fee (s : Eternalog) : Balance := s.storage_fee

/-- Message `get_total_logs()`. -/
def get_total_logs (s : Eternalog) : Nat := s.total_logs

/-- Message `get_total_fees_burned()`. -/
def get_total_fees_burned (s : Eternalog) : Balance := s.total_fees_burned

/-- Message `get_next_log_id()`. -/
def get_next_log_id (s : Eternalog) : Nat := s.next_log_id

/-- Message `get_owner()`. -/
def get_owner (s : Eternalog) : AccountId := s.owner

/-- Message `update_storage_fee(new_fee)`: owner-gated unconditional
replacement of the fee. -/
def update_storage_fee (env : Env) (s : Eternalog) (new_fee : Balance) :
    Except Error Unit × Eternalog :=
  if env.caller ≠ s.owner then (Except.error Error.Unauthorized, s)
  else (Except.ok (), { s with storage_fee := new_fee })

/-- One mutating contract call, with its host context. -/
inductive Op where
  | store (env : Env) (data : List Char) (log_type : Nat)
  | setFee (env : Env) (new_fee : Balance)

/-- Record of one successful `store_log` call in a trace: the returned ID, the
host context of the call, and the call's arguments. -/
structure StoreRecord where
  id : Nat
  env : Env
  data : List Char
  log_type : Nat

/-- Run a sequence of mutating calls, returning the final state and the
chronological records of the successful `store_log` calls. -/
def runOps : Eternalog → List Op → Eternalog × List StoreRecord
  | s, [] => (s, [])
  | s, Op.store env data lt :: rest =>
    match store_log env s data lt with
    | (Except.ok id, s2) =>
      let r := runOps s2 rest
      (r.1, { id := id, env := env, data := data, log_type := lt } :: r.2)
    | (Except.error _, s2) => runOps s2 rest
  | s, Op.setFee env nf :: rest => runOps (update_storage_fee env s nf).2 rest

/-- States reachable from a freshly constructed contract by any sequence of
mutating calls (queries do not change state). -/
inductive Reachable : Eternalog → Prop where
  | init (env : Env) (fee : Balance) : Reachable (Eternalog.new env fee)
  | store (env : Env) (data : List Char) (lt : Nat) {s : Eternalog} :
      Reachable s → Reachable (store_log env s data lt).2
  | setFee (env : Env) (nf : Balance) {s : Eternalog} :
      Reachable s → Reachable (update_storage_fee env s nf).2

/-- Technical well-formedness used while running traces: the counter is a
valid positive u64 and no entry component exists at or above it. -/
def GoodState (s : Eternalog) : Prop :=
  1 ≤ s.next_log_id ∧ s.next_log_id ≤ U64MAX ∧
  ∀ id, s.next_log_id ≤ id →
    s.log_data id = none ∧ s.log_types id = none ∧
    s.log_authors id = none ∧ s.log_timestamps id = none

/-- Full state invariant, valid as long as the ID counter has not saturated:
entries exist exactly for IDs in `[1, next_log_id)` and the two indices are
exact, duplicate-free and sorted. -/
def InvStrict (s : Eternalog) : Prop :=
  1 ≤ s.next_log_id ∧
  (∀ id, 1 ≤ id → id < s.next_log_id →
      (∃ d, s.log_data id = some d) ∧ (∃ t, s.log_types id = some t) ∧
      (∃ a, s.log_authors id = some a) ∧ (∃ b, s.log_timestamps id = some b)) ∧
  (∀ id, id = 0 ∨ s.next_log_id ≤ id →
      s.log_data id = none ∧ s.log_types id = none ∧
      s.log_authors id = none ∧ s.log_timestamps id = none) ∧
  (∀ t id, id ∈ (s.logs_by_type t).getD [] ↔ s.log_types id = some t) ∧
  (∀ a id, id ∈ (s.logs_by_author a).getD [] ↔ s.log_authors id = some a) ∧
  (∀ t, List.Pairwise (· < ·) ((s.logs_by_type t).getD [])) ∧
  (∀ a, List.Pairwise (· < ·) ((s.logs_by_author a).getD []))

/-- A fixed host context used for concrete runs: caller 0, block 0, zero value
transferred. -/
def env0 : Env := { caller := 0, blockNumber := 0, transferredValue := 0 }

/-- One successful type-1 store with context `env0` (the contract fee is 0 in
the concrete runs below, so the zero payment suffices). -/
def stepOne (s : Eternalog) : Eternalog := (store_log env0 s ['x'] 1).2

/-- The contract state after `k` type-1 stores from a fresh zero-fee contract. -/
def sIter (k : Nat) : Eternalog := stepOne^[k] (Eternalog.new env0 0)

/-- The contract state after `2^64 - 1` successful stores: every u64 ID from 1
to `u64::MAX` has been assigned and the counter has saturated. -/
def sA : Eternalog := sIter U64MAX

/-- A small concrete reachable state used by witnesses: one stored entry
`"ab"` of type 1 by caller 0. -/
def sW : Eternalog := (store_log env0 (Eternalog.new env0 0) ['a', 'b'] 1).2

/-- `k` identical valid type-1 store calls. -/
def repOps (k : Nat) : List Op := List.replicate k (Op.store env0 ['x'] 1)

/-- A tiny concrete trace used by witnesses: two valid stores. -/
def wOps : List Op := [Op.store env0 ['a'] 1, Op.store env0 ['b'] 2]

/-- The IDs assigned by `k` consecutive successful stores when the counter
starts at `n`: `n`, then `n` saturating-plus-1, and so on. -/
def idSeq : Nat → Nat → List Nat
  | _, 0 => []
  | n, Nat.succ k => n :: idSeq (satAdd64 n 1) k

/-! ### Basic facts about `store_log` and `update_storage_fee` -/

theorem store_log_of_valid (env : Env) (s : Eternalog) (d : List Char) (lt : Nat)
    (hd : d ≠ []) (hlt : lt ≠ 0) (hp : ¬ env.transferredValue < s.storage_fee) :
    store_log env s d lt =
      (Except.ok s.next_log_id,
        { s with
          log_data := fun i => if i = s.next_log_id then some d else s.log_data i
          log_types := fun i => if i = s.next_log_id then some lt else s.log_types i
          log_authors := fun i =>
            if i = s.next_log_id then some env.caller else s.log_authors i
          log_timestamps := fun i =>
            if i = s.next_log_id then some env.blockNumber else s.log_timestamps i
          logs_by_type := fun t =>
            if t = lt then some ((s.logs_by_type lt).getD [] ++ [s.next_log_id])
            else s.logs_by_type t
          logs_by_author := fun a =>
            if a = env.caller then
              some ((s.logs_by_author env.caller).getD [] ++ [s.next_log_id])
            else s.logs_by_author a
          next_log_id := satAdd64 s.next_log_id 1
          total_logs := satAdd64 s.total_logs 1
          total_fees_burned := satAdd128 s.total_fees_burned env.transferredValue }) := by
  simp [store_log, hd, hlt, hp]

theorem store_log_invalid (env : Env) (s : Eternalog) (d : List Char) (lt : Nat)
    (h : d = [] ∨ lt = 0 ∨ env.transferredValue < s.storage_fee) :
    (store_log env s d lt).2 = s ∧ ∃ e, (store_log env s d lt).1 = Except.error e := by
  unfold store_log
  by_cases hd : d = [] <;> by_cases hlt : lt = 0 <;>
    by_cases hp : env.transferredValue < s.storage_fee <;>
    simp [hd, hlt, hp] at h ⊢

theorem store_log_err_state (env : Env) (s : Eternalog) (d : List Char) (lt : Nat)
    (e : Error) (h : (store_log env s d lt).1 = Except.error e) :
    (store_log env s d lt).2 = s := by
  by_cases hd : d = []
  · exact (store_log_invalid env s d lt (Or.inl hd)).1
  by_cases hlt : lt = 0
  · exact (store_log_invalid env s d lt (Or.inr (Or.inl hlt))).1
  by_cases hp : env.transferredValue < s.storage_fee
  · exact (store_log_invalid env s d lt (Or.inr (Or.inr hp))).1
  · rw [store_log_of_valid env s d lt hd hlt hp] at h
    simp at h

theorem store_log_ok_id (env : Env) (s : Eternalog) (d : List Char) (lt : Nat)
    (id : Nat) (h : (store_log env s d lt).1 = Except.ok id) :
    id = s.next_log_id ∧ d ≠ [] ∧ lt ≠ 0 ∧
      ¬ env.transferredValue < s.storage_fee := by
  by_cases hd : d = []
  · rcases (store_log_invalid env s d lt (Or.inl hd)).2 with ⟨e, he⟩
    rw [he] at h; simp at h
  by_cases hlt : lt = 0
  · rcases (store_log_invalid env s d lt (Or.inr (Or.inl hlt))).2 with ⟨e, he⟩
    rw [he] at h; simp at h
  by_cases hp : env.transferredValue < s.storage_fee
  · rcases (store_log_invalid env s d lt (Or.inr (Or.inr hp))).2 with ⟨e, he⟩
    rw [he] at h; simp at h
  · rw [store_log_of_valid env s d lt hd hlt hp] at h
    simp at h
    exact ⟨h.symm, hd, hlt, hp⟩

theorem store_log_fee_const (env : Env) (s : Eternalog) (d : List Char) (lt : Nat) :
    ((store_log env s d lt).2).storage_fee = s.storage_fee := by
  unfold store_log
  by_cases hd : d = [] <;> by_cases hlt : lt = 0 <;>
    by_cases hp : env.transferredValue < s.storage_fee <;> simp [hd, hlt, hp]

theorem store_log_owner_const (env : Env) (s : Eternalog) (d : List Char) (lt : Nat) :
    ((store_log env s d lt).2).owner = s.owner := by
  unfold store_log
  by_cases hd : d = [] <;> by_cases hlt : lt = 0 <;>
    by_cases hp : env.transferredValue < s.storage_fee <;> simp [hd, hlt, hp]

theorem update_fee_cases (env : Env) (s : Eternalog) (nf : Balance) :
    update_storage_fee env s nf =
      if env.caller = s.owner then (Except.ok (), { s with storage_fee := nf })
      else (Except.error Error.Unauthorized, s) := by
  unfold update_storage_fee
  by_cases h : env.caller = s.owner <;> simp [h]

theorem update_fee_only (env : Env) (s : Eternalog) (nf : Balance) :
    ((update_storage_fee env s nf).2).owner = s.owner ∧
    ((update_storage_fee env s nf).2).next_log_id = s.next_log_id ∧
    ((update_storage_fee env s nf).2).total_logs = s.total_logs ∧
    ((update_storage_fee env s nf).2).total_fees_burned = s.total_fees_burned ∧
    ((update_storage_fee env s nf).2).log_data = s.log_data ∧
    ((update_storage_fee env s nf).2).log_types = s.log_types ∧
    ((update_storage_fee env s nf).2).log_authors = s.log_authors ∧
    ((update_storage_fee env s nf).2).log_timestamps = s.log_timestamps ∧
    ((update_storage_fee env s nf).2).logs_by_type = s.logs_by_type ∧
    ((update_storage_fee env s nf).2).logs_by_author = s.logs_by_author := by
  rw [update_fee_cases]
  by_cases h : env.caller = s.owner <;> simp [h]

theorem store_log_ok_state (env : Env) (s : Eternalog) (d : List Char) (lt : Nat)
    (id : Nat) (h : (store_log env s d lt).1 = Except.ok id) :
    (store_log env s d lt).2 =
      { s with
        log_data := fun i => if i = s.next_log_id then some d else s.log_data i
        log_types := fun i => if i = s.next_log_id then some lt else s.log_types i
        log_authors := fun i =>
          if i = s.next_log_id then some env.caller else s.log_authors i
        log_timestamps := fun i =>
          if i = s.next_log_id then some env.blockNumber else s.log_timestamps i
        logs_by_type := fun t =>
          if t = lt then some ((s.logs_by_type lt).getD [] ++ [s.next_log_id])
          else s.logs_by_type t
        logs_by_author := fun a =>
          if a = env.caller then
            some ((s.logs_by_author env.caller).getD [] ++ [s.next_log_id])
          else s.logs_by_author a
        next_log_id := satAdd64 s.next_log_id 1
        total_logs := satAdd64 s.total_logs 1
        total_fees_burned := satAdd128 s.total_fees_burned env.transferredValue } := by
  obtain ⟨hid, hd, hlt, hp⟩ := store_log_ok_id env s d lt id h
  rw [store_log_of_valid env s d lt hd hlt hp]

theorem satAdd64_le_max (a b : Nat) : satAdd64 a b ≤ U64MAX :=
  min_le_right _ _

theorem satAdd64_lt_max (a : Nat) (h : satAdd64 a 1 < U64MAX) :
    satAdd64 a 1 = a + 1 ∧ a < U64MAX := by
  simp only [satAdd64] at h ⊢
  omega

theorem runOps_nil (s : Eternalog) : runOps s [] = (s, []) := rfl

theorem runOps_setFee (env : Env) (s : Eternalog) (nf : Balance) (rest : List Op) :
    runOps s (Op.setFee env nf :: rest) = runOps (update_storage_fee env s nf).2 rest :=
  rfl

theorem runOps_store_ok (env : Env) (s : Eternalog) (d : List Char) (lt : Nat)
    (rest : List Op) (id : Nat) (h : (store_log env s d lt).1 = Except.ok id) :
    runOps s (Op.store env d lt :: rest) =
      ((runOps (store_log env s d lt).2 rest).1,
        { id := id, env := env, data := d, log_type := lt } ::
          (runOps (store_log env s d lt).2 rest).2) := by
  rcases hsl : store_log env s d lt with ⟨res, s2⟩
  rw [hsl] at h
  cases res with
  | error e => simp at h
  | ok j =>
    simp only [Except.ok.injEq] at h
    subst h
    simp [runOps, hsl]

theorem runOps_store_err (env : Env) (s : Eternalog) (d : List Char) (lt : Nat)
    (rest : List Op) (e : Error) (h : (store_log env s d lt).1 = Except.error e) :
    runOps s (Op.store env d lt :: rest) = runOps s rest := by
  have hst : (store_log env s d lt).2 = s := store_log_err_state env s d lt e h
  rcases hsl : store_log env s d lt with ⟨res, s2⟩
  rw [hsl] at h hst
  cases res with
  | error e2 =>
    simp only at hst
    subst hst
    simp [runOps, hsl]
  | ok j => simp at h

theorem runOps_next_mono (ops : List Op) : ∀ s : Eternalog, s.next_log_id ≤ U64MAX →
    s.next_log_id ≤ (runOps s ops).1.next_log_id ∧
      (runOps s ops).1.next_log_id ≤ U64MAX := by
  induction ops with
  | nil => intro s hs; rw [runOps_nil]; exact ⟨le_refl _, hs⟩
  | cons op rest ih =>
    intro s hs
    cases op with
    | setFee env nf =>
      rw [runOps_setFee]
      have hn := (update_fee_only env s nf).2.1
      have := ih (update_storage_fee env s nf).2 (by rw [hn]; exact hs)
      rw [hn] at this
      exact this
    | store env d lt =>
      rcases h1 : (store_log env s d lt).1 with e | id
      · rw [runOps_store_err env s d lt rest e h1]; exact ih s hs
      · rw [runOps_store_ok env s d lt rest id h1]
        have hst := store_log_ok_state env s d lt id h1
        have hn : (store_log env s d lt).2.next_log_id = satAdd64 s.next_log_id 1 := by
          rw [hst]
        have h2 := ih (store_log env s d lt).2 (by rw [hn]; exact satAdd64_le_max _ _)
        constructor
        · refine le_trans ?_ h2.1
          rw [hn]
          simp only [satAdd64]
          omega
        · exact h2.2

theorem goodState_new (env : Env) (fee : Balance) : GoodState (Eternalog.new env fee) := by
  refine ⟨le_refl 1, by simp [Eternalog.new, U64MAX], fun id _ => ?_⟩
  simp [Eternalog.new]

theorem runOps_spec (ops : List Op) : ∀ s : Eternalog, GoodState s →
    (runOps s ops).1.next_log_id < U64MAX →
    GoodState (runOps s ops).1 ∧
    s.next_log_id ≤ (runOps s ops).1.next_log_id ∧
    (∀ id, id < s.next_log_id →
      (runOps s ops).1.log_data id = s.log_data id ∧
      (runOps s ops).1.log_types id = s.log_types id ∧
      (runOps s ops).1.log_authors id = s.log_authors id ∧
      (runOps s ops).1.log_timestamps id = s.log_timestamps id) ∧
    (∀ r ∈ (runOps s ops).2,
      s.next_log_id ≤ r.id ∧ r.id < (runOps s ops).1.next_log_id ∧
      (runOps s ops).1.log_data r.id = some r.data ∧
      (runOps s ops).1.log_types r.id = some r.log_type ∧
      (runOps s ops).1.log_authors r.id = some r.env.caller ∧
      (runOps s ops).1.log_timestamps r.id = some r.env.blockNumber) ∧
    List.Pairwise (fun a b => a.id < b.id) (runOps s ops).2 ∧
    (∀ r, ((runOps s ops).2).head? = some r → r.id = s.next_log_id) := by
  induction ops with
  | nil =>
    intro s hg _
    rw [runOps_nil]
    refine ⟨hg, le_refl _, fun id _ => ⟨rfl, rfl, rfl, rfl⟩, ?_, ?_, ?_⟩
    · intro r hr; simp at hr
    · simp
    · intro r hr; simp at hr
  | cons op rest ih =>
    intro s hg hns
    cases op with
    | setFee env nf =>
      rw [runOps_setFee] at hns ⊢
      obtain ⟨ho, hn, htl, htf, hld, hlt2, hla, hlts, hbt, hba⟩ := update_fee_only env s nf
      have hg2 : GoodState (update_storage_fee env s nf).2 := by
        refine ⟨by rw [hn]; exact hg.1, by rw [hn]; exact hg.2.1, fun id hid => ?_⟩
        rw [hld, hlt2, hla, hlts]
        exact hg.2.2 id (by rwa [hn] at hid)
      obtain ⟨c1, c2, c3, c4, c5, c6⟩ := ih _ hg2 hns
      rw [hn] at c2
      rw [hn] at c6
      rw [hn] at c4
      refine ⟨c1, c2, fun id hid => ?_, c4, c5, c6⟩
      have := c3 id (by rwa [hn])
      rwa [hld, hlt2, hla, hlts] at this
    | store env d lt =>
      rcases h1 : (store_log env s d lt).1 with e | id
      · rw [runOps_store_err env s d lt rest e h1] at hns ⊢
        exact ih s hg hns
      · rw [runOps_store_ok env s d lt rest id h1] at hns ⊢
        simp only at hns ⊢
        have hst := store_log_ok_state env s d lt id h1
        have hid : id = s.next_log_id := (store_log_ok_id env s d lt id h1).1
        have hn2 : (store_log env s d lt).2.next_log_id = satAdd64 s.next_log_id 1 := by
          rw [hst]
        -- the run of the remaining operations does not saturate either
        have hmono := runOps_next_mono rest (store_log env s d lt).2
          (by rw [hn2]; exact satAdd64_le_max _ _)
        have hs2lt : (store_log env s d lt).2.next_log_id < U64MAX :=
          lt_of_le_of_lt hmono.1 hns
        obtain ⟨hsucc, hslt⟩ := satAdd64_lt_max s.next_log_id (by rwa [hn2] at hs2lt)
        have hnext2 : (store_log env s d lt).2.next_log_id = s.next_log_id + 1 := by
          rw [hn2, hsucc]
        -- component values of the intermediate state
        have hd2 : ∀ i, (store_log env s d lt).2.log_data i =
            if i = s.next_log_id then some d else s.log_data i := by
          intro i; rw [hst]
        have ht2 : ∀ i, (store_log env s d lt).2.log_types i =
            if i = s.next_log_id then some lt else s.log_types i := by
          intro i; rw [hst]
        have ha2 : ∀ i, (store_log env s d lt).2.log_authors i =
            if i = s.next_log_id then some env.caller else s.log_authors i := by
          intro i; rw [hst]
        have hts2 : ∀ i, (store_log env s d lt).2.log_timestamps i =
            if i = s.next_log_id then some env.blockNumber else s.log_timestamps i := by
          intro i; rw [hst]
        have hg2 : GoodState (store_log env s d lt).2 := by
          refine ⟨by rw [hnext2]; omega, by rw [hn2]; exact satAdd64_le_max _ _,
            fun i hi => ?_⟩
          rw [hnext2] at hi
          have hne : ¬ i = s.next_log_id := by omega
          have hold := hg.2.2 i (by omega)
          rw [hd2, ht2, ha2, hts2]
          simp only [hne, if_false]
          exact hold
        obtain ⟨c1, c2, c3, c4, c5, c6⟩ := ih _ hg2 hns
        refine ⟨c1, ?_, ?_, ?_, ?_, ?_⟩
        · rw [hnext2] at c2; omega
        · intro i hi
          have hpres := c3 i (by rw [hnext2]; omega)
          have hne : ¬ i = s.next_log_id := by omega
          rw [hd2, ht2, ha2, hts2] at hpres
          simp only [hne, if_false] at hpres
          exact hpres
        · intro r hr
          rcases List.mem_cons.mp hr with hr0 | hrr
          · subst hr0
            simp only
            have hpres := c3 s.next_log_id (by rw [hnext2]; omega)
            rw [hd2, ht2, ha2, hts2] at hpres
            simp only [if_pos rfl] at hpres
            obtain ⟨p1, p2, p3, p4⟩ := hpres
            rw [hid]
            exact ⟨le_refl _, by rw [hnext2] at c2; omega, p1, p2, p3, p4⟩
          · obtain ⟨q1, q2, q3, q4, q5, q6⟩ := c4 r hrr
            rw [hnext2] at q1
            exact ⟨by omega, q2, q3, q4, q5, q6⟩
        · refine List.pairwise_cons.mpr ⟨fun r hr => ?_, c5⟩
          have := (c4 r hr).1
          rw [hnext2] at this
          simp only
          rw [hid]
          omega
        · intro r hr
          simp only [List.head?_cons, Option.some.injEq] at hr
          rw [← hr]
          exact hid

theorem runOps_totals (ops : List Op) : ∀ s : Eternalog,
    (runOps s ops).1.total_logs =
      ((runOps s ops).2).foldl (fun acc _ => satAdd64 acc 1) s.total_logs ∧
    (runOps s ops).1.total_fees_burned =
      ((runOps s ops).2).foldl (fun acc r => satAdd128 acc r.env.transferredValue)
        s.total_fees_burned := by
  induction ops with
  | nil => intro s; rw [runOps_nil]; exact ⟨rfl, rfl⟩
  | cons op rest ih =>
    intro s
    cases op with
    | setFee env nf =>
      rw [runOps_setFee]
      obtain ⟨ho, hn, htl, htf, hrest⟩ := update_fee_only env s nf
      have := ih (update_storage_fee env s nf).2
      rwa [htl, htf] at this
    | store env d lt =>
      rcases h1 : (store_log env s d lt).1 with e | id
      · rw [runOps_store_err env s d lt rest e h1]; exact ih s
      · rw [runOps_store_ok env s d lt rest id h1]
        have hst := store_log_ok_state env s d lt id h1
        have htl : (store_log env s d lt).2.total_logs = satAdd64 s.total_logs 1 := by
          rw [hst]
        have htf : (store_log env s d lt).2.total_fees_burned =
            satAdd128 s.total_fees_burned env.transferredValue := by
          rw [hst]
        have := ih (store_log env s d lt).2
        rw [htl, htf] at this
        simpa using this

theorem runOps_totals_mono (ops : List Op) : ∀ s : Eternalog,
    s.total_logs ≤ U64MAX → s.total_fees_burned ≤ U128MAX →
    (s.total_logs ≤ (runOps s ops).1.total_logs ∧
      (runOps s ops).1.total_logs ≤ U64MAX) ∧
    (s.total_fees_burned ≤ (runOps s ops).1.total_fees_burned ∧
      (runOps s ops).1.total_fees_burned ≤ U128MAX) := by
  induction ops with
  | nil => intro s h1 h2; rw [runOps_nil]; exact ⟨⟨le_refl _, h1⟩, ⟨le_refl _, h2⟩⟩
  | cons op rest ih =>
    intro s h1 h2
    cases op with
    | setFee env nf =>
      rw [runOps_setFee]
      obtain ⟨ho, hn, htl, htf, hrest⟩ := update_fee_only env s nf
      have := ih (update_storage_fee env s nf).2 (by rwa [htl]) (by rwa [htf])
      rwa [htl, htf] at this
    | store env d lt =>
      rcases h1s : (store_log env s d lt).1 with e | id
      · rw [runOps_store_err env s d lt rest e h1s]; exact ih s h1 h2
      · rw [runOps_store_ok env s d lt rest id h1s]
        have hst := store_log_ok_state env s d lt id h1s
        have htl : (store_log env s d lt).2.total_logs = satAdd64 s.total_logs 1 := by
          rw [hst]
        have htf : (store_log env s d lt).2.total_fees_burned =
            satAdd128 s.total_fees_burned env.transferredValue := by
          rw [hst]
        have hmono := ih (store_log env s d lt).2
          (by rw [htl]; exact min_le_right _ _) (by rw [htf]; exact min_le_right _ _)
        rw [htl, htf] at hmono
        simp only
        have hb1 : s.total_logs ≤ satAdd64 s.total_logs 1 :=
          le_min (Nat.le_succ _) h1
        have hb2 : s.total_fees_burned ≤
            satAdd128 s.total_fees_burned env.transferredValue :=
          le_min (Nat.le_add_right _ _) h2
        exact ⟨⟨le_trans hb1 hmono.1.1, hmono.1.2⟩,
          ⟨le_trans hb2 hmono.2.1, hmono.2.2⟩⟩

theorem runOps_fst_append (l1 : List Op) : ∀ (s : Eternalog) (l2 : List Op),
    (runOps s (l1 ++ l2)).1 = (runOps (runOps s l1).1 l2).1 := by
  induction l1 with
  | nil => intro s l2; rfl
  | cons op rest ih =>
    intro s l2
    cases op with
    | setFee env nf =>
      rw [List.cons_append, runOps_setFee, runOps_setFee, ih]
    | store env d lt =>
      rcases h1 : (store_log env s d lt).1 with e | id
      · rw [List.cons_append, runOps_store_err env s d lt (rest ++ l2) e h1,
          runOps_store_err env s d lt rest e h1, ih]
      · rw [List.cons_append, runOps_store_ok env s d lt (rest ++ l2) id h1,
          runOps_store_ok env s d lt rest id h1, ih]

theorem runOps_owner (ops : List Op) : ∀ s : Eternalog,
    (runOps s ops).1.owner = s.owner := by
  induction ops with
  | nil => intro s; rw [runOps_nil]
  | cons op rest ih =>
    intro s
    cases op with
    | setFee env nf =>
      rw [runOps_setFee, ih, (update_fee_only env s nf).1]
    | store env d lt =>
      rcases h1 : (store_log env s d lt).1 with e | id
      · rw [runOps_store_err env s d lt rest e h1]; exact ih s
      · rw [runOps_store_ok env s d lt rest id h1]
        simp only
        rw [ih, store_log_owner_const]

theorem reachable_inv (s : Eternalog) (h : Reachable s) :
    s.next_log_id < U64MAX → InvStrict s := by
  induction h with
  | init env fee =>
    intro _
    refine ⟨le_refl 1, ?_, ?_, ?_, ?_, ?_, ?_⟩
    · intro id h1 h2
      simp only [Eternalog.new] at h2
      omega
    · intro id _; simp [Eternalog.new]
    · intro t id; simp [Eternalog.new]
    · intro a id; simp [Eternalog.new]
    · intro t; simp [Eternalog.new]
    · intro a; simp [Eternalog.new]
  | setFee env nf hs ih =>
    rename_i s0
    intro hlt
    obtain ⟨ho, hn, htl, htf, hld, hlt2, hla, hlts, hbt, hba⟩ := update_fee_only env s0 nf
    rw [hn] at hlt
    have hi := ih hlt
    simp only [InvStrict] at hi ⊢
    rw [hn, hld, hlt2, hla, hlts, hbt, hba]
    exact hi
  | store env d lt hs ih =>
    rename_i s0
    intro hlt
    rcases h1 : (store_log env s0 d lt).1 with e | id
    · rw [store_log_err_state env s0 d lt e h1] at hlt ⊢
      exact ih hlt
    · have hst := store_log_ok_state env s0 d lt id h1
      have hn2 : (store_log env s0 d lt).2.next_log_id = satAdd64 s0.next_log_id 1 := by
        rw [hst]
      rw [hn2] at hlt
      obtain ⟨hsucc, hnlt⟩ := satAdd64_lt_max _ hlt
      obtain ⟨hi1, hi2, hi3, hi4, hi5, hi6, hi7⟩ := ih hnlt
      have hd2 : ∀ i, (store_log env s0 d lt).2.log_data i =
          if i = s0.next_log_id then some d else s0.log_data i := by
        intro i; rw [hst]
      have ht2 : ∀ i, (store_log env s0 d lt).2.log_types i =
          if i = s0.next_log_id then some lt else s0.log_types i := by
        intro i; rw [hst]
      have ha2 : ∀ i, (store_log env s0 d lt).2.log_authors i =
          if i = s0.next_log_id then some env.caller else s0.log_authors i := by
        intro i; rw [hst]
      have hts2 : ∀ i, (store_log env s0 d lt).2.log_timestamps i =
          if i = s0.next_log_id then some env.blockNumber else s0.log_timestamps i := by
        intro i; rw [hst]
      have hbt2 : ∀ t, (store_log env s0 d lt).2.logs_by_type t =
          if t = lt then some ((s0.logs_by_type lt).getD [] ++ [s0.next_log_id])
          else s0.logs_by_type t := by
        intro t; rw [hst]
      have hba2 : ∀ a, (store_log env s0 d lt).2.logs_by_author a =
          if a = env.caller then
            some ((s0.logs_by_author env.caller).getD [] ++ [s0.next_log_id])
          else s0.logs_by_author a := by
        intro a; rw [hst]
      -- bucket members are assigned IDs, hence positive and below the counter
      have hbndT : ∀ t i, i ∈ (s0.logs_by_type t).getD [] →
          1 ≤ i ∧ i < s0.next_log_id := by
        intro t i hm
        have hty := (hi4 t i).mp hm
        by_contra hc
        have : i = 0 ∨ s0.next_log_id ≤ i := by omega
        rw [(hi3 i this).2.1] at hty
        exact Option.noConfusion hty
      have hbndA : ∀ a i, i ∈ (s0.logs_by_author a).getD [] →
          1 ≤ i ∧ i < s0.next_log_id := by
        intro a i hm
        have hau := (hi5 a i).mp hm
        by_contra hc
        have : i = 0 ∨ s0.next_log_id ≤ i := by omega
        rw [(hi3 i this).2.2.1] at hau
        exact Option.noConfusion hau
      simp only [InvStrict, hd2, ht2, ha2, hts2, hbt2, hba2, hn2, hsucc]
      refine ⟨by omega, ?_, ?_, ?_, ?_, ?_, ?_⟩
      · intro i hpos hilt
        by_cases hie : i = s0.next_log_id
        · simp only [hie, if_pos rfl]
          exact ⟨⟨d, rfl⟩, ⟨lt, rfl⟩, ⟨env.caller, rfl⟩, ⟨env.blockNumber, rfl⟩⟩
        · simp only [if_neg hie]
          exact hi2 i hpos (by omega)
      · intro i hcase
        have hie : ¬ i = s0.next_log_id := by omega
        simp only [if_neg hie]
        exact hi3 i (by omega)
      · intro t i
        by_cases ht : t = lt
        · rw [if_pos ht, Option.getD_some]
          by_cases hie : i = s0.next_log_id
          · rw [if_pos hie]
            subst hie
            constructor
            · intro _; rw [ht]
            · intro _
              exact List.mem_append.mpr (Or.inr (List.mem_singleton.mpr rfl))
          · rw [if_neg hie]
            simp only [List.mem_append, List.mem_singleton, hie, or_false]
            rw [ht]
            exact hi4 lt i
        · rw [if_neg ht]
          by_cases hie : i = s0.next_log_id
          · rw [if_pos hie]
            constructor
            · intro hm
              exact absurd (hbndT t i hm).2 (by rw [hie]; exact lt_irrefl _)
            · intro hm
              exact absurd (Option.some_inj.mp hm).symm ht
          · rw [if_neg hie]
            exact hi4 t i
      · intro a i
        by_cases ha : a = env.caller
        · rw [if_pos ha, Option.getD_some]
          by_cases hie : i = s0.next_log_id
          · rw [if_pos hie]
            subst hie
            constructor
            · intro _; rw [ha]
            · intro _
              exact List.mem_append.mpr (Or.inr (List.mem_singleton.mpr rfl))
          · rw [if_neg hie]
            simp only [List.mem_append, List.mem_singleton, hie, or_false]
            rw [ha]
            exact hi5 env.caller i
        · rw [if_neg ha]
          by_cases hie : i = s0.next_log_id
          · rw [if_pos hie]
            constructor
            · intro hm
              exact absurd (hbndA a i hm).2 (by rw [hie]; exact lt_irrefl _)
            · intro hm
              exact absurd (Option.some_inj.mp hm).symm ha
          · rw [if_neg hie]
            exact hi5 a i
      · intro t
        by_cases ht : t = lt
        · rw [if_pos ht, Option.getD_some]
          refine List.pairwise_append.mpr ⟨hi6 lt, List.pairwise_singleton _ _, ?_⟩
          intro x hx y hy
          rw [List.mem_singleton] at hy
          subst hy
          exact (hbndT lt x hx).2
        · rw [if_neg ht]
          exact hi6 t
      · intro a
        by_cases ha : a = env.caller
        · rw [if_pos ha, Option.getD_some]
          refine List.pairwise_append.mpr ⟨hi7 env.caller, List.pairwise_singleton _ _, ?_⟩
          intro x hx y hy
          rw [List.mem_singleton] at hy
          subst hy
          exact (hbndA env.caller x hx).2
        · rw [if_neg ha]
          exact hi7 a

/-! ### Concrete saturated runs -/

theorem store_env0_valid (s : Eternalog) (t : Nat) (ht : t ≠ 0)
    (hfee : s.storage_fee = 0) :
    store_log env0 s ['x'] t =
      (Except.ok s.next_log_id,
        { s with
          log_data := fun i => if i = s.next_log_id then some ['x'] else s.log_data i
          log_types := fun i => if i = s.next_log_id then some t else s.log_types i
          log_authors := fun i =>
            if i = s.next_log_id then some env0.caller else s.log_authors i
          log_timestamps := fun i =>
            if i = s.next_log_id then some env0.blockNumber else s.log_timestamps i
          logs_by_type := fun u =>
            if u = t then some ((s.logs_by_type t).getD [] ++ [s.next_log_id])
            else s.logs_by_type u
          logs_by_author := fun a =>
            if a = env0.caller then
              some ((s.logs_by_author env0.caller).getD [] ++ [s.next_log_id])
            else s.logs_by_author a
          next_log_id := satAdd64 s.next_log_id 1
          total_logs := satAdd64 s.total_logs 1
          total_fees_burned := satAdd128 s.total_fees_burned env0.transferredValue }) :=
  store_log_of_valid env0 s ['x'] t (by simp) ht (by rw [hfee]; exact Nat.not_lt_zero _)

theorem sIter_succ (k : Nat) : sIter (k + 1) = stepOne (sIter k) :=
  Function.iterate_succ_apply' stepOne k _

theorem sIter_fee (k : Nat) : (sIter k).storage_fee = 0 := by
  induction k with
  | zero => rfl
  | succ k ih =>
    rw [sIter_succ]
    show (store_log env0 (sIter k) ['x'] 1).2.storage_fee = 0
    rw [store_log_fee_const]
    exact ih

theorem stepOne_next (s : Eternalog) (hfee : s.storage_fee = 0) :
    (stepOne s).next_log_id = satAdd64 s.next_log_id 1 := by
  show (store_log env0 s ['x'] 1).2.next_log_id = _
  rw [store_env0_valid s 1 one_ne_zero hfee]

theorem sIter_next (k : Nat) : (sIter k).next_log_id = min (1 + k) U64MAX := by
  induction k with
  | zero =>
    show (1 : Nat) = min (1 + 0) U64MAX
    simp only [U64MAX]
    omega
  | succ k ih =>
    rw [sIter_succ, stepOne_next _ (sIter_fee k), ih]
    simp only [satAdd64, U64MAX]
    omega

theorem stepOne_log_data_next (s : Eternalog) (hfee : s.storage_fee = 0) :
    (stepOne s).log_data s.next_log_id = some ['x'] := by
  show (store_log env0 s ['x'] 1).2.log_data s.next_log_id = _
  rw [store_env0_valid s 1 one_ne_zero hfee]
  simp

theorem stepOne_log_types_next (s : Eternalog) (hfee : s.storage_fee = 0) :
    (stepOne s).log_types s.next_log_id = some 1 := by
  show (store_log env0 s ['x'] 1).2.log_types s.next_log_id = _
  rw [store_env0_valid s 1 one_ne_zero hfee]
  simp

theorem stepOne_bucket1 (s : Eternalog) (hfee : s.storage_fee = 0) :
    ((stepOne s).logs_by_type 1).getD [] =
      (s.logs_by_type 1).getD [] ++ [s.next_log_id] := by
  show (((store_log env0 s ['x'] 1).2).logs_by_type 1).getD [] = _
  rw [store_env0_valid s 1 one_ne_zero hfee]
  simp

theorem sA_fee : sA.storage_fee = 0 := sIter_fee U64MAX

theorem sA_next : sA.next_log_id = U64MAX := by
  show (sIter U64MAX).next_log_id = U64MAX
  rw [sIter_next]
  exact min_eq_right (Nat.le_add_left _ _)

theorem sA_eq_step : sA = stepOne (sIter (U64MAX - 1)) := by
  show sIter U64MAX = _
  have h : U64MAX = (U64MAX - 1) + 1 := by simp only [U64MAX]
  nth_rewrite 1 [h]
  rw [sIter_succ]

theorem mid_next : (sIter (U64MAX - 1)).next_log_id = U64MAX := by
  rw [sIter_next]
  simp only [U64MAX]
  omega

theorem sA_log_data_max : sA.log_data U64MAX = some ['x'] := by
  have h := stepOne_log_data_next (sIter (U64MAX - 1)) (sIter_fee _)
  rw [mid_next] at h
  rw [sA_eq_step]
  exact h

theorem sA_log_types_max : sA.log_types U64MAX = some 1 := by
  have h := stepOne_log_types_next (sIter (U64MAX - 1)) (sIter_fee _)
  rw [mid_next] at h
  rw [sA_eq_step]
  exact h

theorem sA_bucket1_max : U64MAX ∈ (sA.logs_by_type 1).getD [] := by
  rw [sA_eq_step, stepOne_bucket1 _ (sIter_fee _), mid_next]
  exact List.mem_append.mpr (Or.inr (List.mem_singleton.mpr rfl))

theorem reach_sIter (k : Nat) : Reachable (sIter k) := by
  induction k with
  | zero => exact Reachable.init env0 0
  | succ k ih =>
    rw [sIter_succ]
    exact Reachable.store env0 ['x'] 1 ih

theorem reach_sA : Reachable sA := reach_sIter U64MAX

theorem sBad_types_max :
    ((store_log env0 sA ['x'] 2).2).log_types U64MAX = some 2 := by
  rw [store_env0_valid sA 2 (by omega) sA_fee]
  simp [sA_next]

theorem sBad_bucket1 :
    (((store_log env0 sA ['x'] 2).2).logs_by_type 1).getD [] =
      (sA.logs_by_type 1).getD [] := by
  rw [store_env0_valid sA 2 (by omega) sA_fee]
  simp

theorem reach_sBad : Reachable (store_log env0 sA ['x'] 2).2 :=
  Reachable.store env0 ['x'] 2 reach_sA

theorem idSeq_length (k : Nat) : ∀ n, (idSeq n k).length = k := by
  induction k with
  | zero => intro n; rfl
  | succ k ih =>
    intro n
    show (n :: idSeq (satAdd64 n 1) k).length = k + 1
    rw [List.length_cons, ih]

theorem idSeq_pairwise_bound (k : Nat) : ∀ n, n ≤ U64MAX →
    List.Pairwise (· < ·) (idSeq n k) → n + k ≤ U64MAX + 1 := by
  induction k with
  | zero => intro n hn _; omega
  | succ k ih =>
    intro n hn hp
    rw [show idSeq n (k + 1) = n :: idSeq (satAdd64 n 1) k from rfl,
      List.pairwise_cons] at hp
    obtain ⟨hlt, htail⟩ := hp
    have hih := ih (satAdd64 n 1) (satAdd64_le_max _ _) htail
    cases k with
    | zero => omega
    | succ k2 =>
      have hmem : satAdd64 n 1 ∈ idSeq (satAdd64 n 1) (k2 + 1) := by
        rw [show idSeq (satAdd64 n 1) (k2 + 1) =
          satAdd64 n 1 :: idSeq (satAdd64 (satAdd64 n 1) 1) k2 from rfl]
        exact List.mem_cons_self _ _
      have hnlt := hlt _ hmem
      simp only [satAdd64] at hnlt hih
      omega

theorem runOps_rep (k : Nat) : ∀ s : Eternalog, s.storage_fee = 0 →
    ((runOps s (repOps k)).2).map StoreRecord.id = idSeq s.next_log_id k := by
  induction k with
  | zero => intro s _; rfl
  | succ k ih =>
    intro s hfee
    have hv := store_env0_valid s 1 one_ne_zero hfee
    have h1 : (store_log env0 s ['x'] 1).1 = Except.ok s.next_log_id := by rw [hv]
    rw [show repOps (k + 1) = Op.store env0 ['x'] 1 :: repOps k from
        List.replicate_succ _ _,
      runOps_store_ok env0 s ['x'] 1 (repOps k) s.next_log_id h1]
    simp only [List.map_cons]
    rw [show idSeq s.next_log_id (k + 1) =
      s.next_log_id :: idSeq (satAdd64 s.next_log_id 1) k from rfl]
    have hfee2 : (store_log env0 s ['x'] 1).2.storage_fee = 0 := by
      rw [store_log_fee_const]; exact hfee
    have hnext2 : (store_log env0 s ['x'] 1).2.next_log_id =
        satAdd64 s.next_log_id 1 := by
      rw [hv]
    rw [ih (store_log env0 s ['x'] 1).2 hfee2, hnext2]

/-! ### Substring and search characterizations -/

theorem isPrefixCh_iff (pat : List Char) : ∀ hay : List Char,
    isPrefixCh pat hay = true ↔ ∃ suf, hay = pat ++ suf := by
  induction pat with
  | nil =>
    intro hay
    simp only [isPrefixCh, List.nil_append]
    exact ⟨fun _ => ⟨hay, rfl⟩, fun _ => trivial⟩
  | cons c cs ih =>
    intro hay
    cases hay with
    | nil =>
      simp only [isPrefixCh]
      constructor
      · intro h; exact absurd h (by simp)
      · rintro ⟨suf, hsuf⟩
        exact absurd hsuf (by simp)
    | cons d ds =>
      simp only [isPrefixCh, Bool.and_eq_true, beq_iff_eq, ih ds,
        List.cons_append, List.cons_eq_cons]
      constructor
      · rintro ⟨rfl, suf, rfl⟩
        exact ⟨suf, rfl, rfl⟩
      · rintro ⟨suf, rfl, rfl⟩
        exact ⟨rfl, suf, rfl⟩

theorem containsSub_iff (hay pat : List Char) :
    containsSub hay pat = true ↔ ∃ pre suf, hay = pre ++ pat ++ suf := by
  induction hay with
  | nil =>
    simp only [containsSub, isPrefixCh_iff]
    constructor
    · rintro ⟨suf, hsuf⟩
      exact ⟨[], suf, by simpa using hsuf⟩
    · rintro ⟨pre, suf, hsuf⟩
      have h := hsuf.symm
      rw [List.append_assoc, List.append_eq_nil] at h
      rw [List.append_eq_nil] at h
      exact ⟨suf, by simp [h.2.1, h.2.2]⟩
  | cons c rest ih =>
    simp only [containsSub, Bool.or_eq_true, isPrefixCh_iff, ih]
    constructor
    · rintro (⟨suf, hsuf⟩ | ⟨pre, suf, hsuf⟩)
      · exact ⟨[], suf, by simpa using hsuf⟩
      · exact ⟨c :: pre, suf, by rw [hsuf]; simp⟩
    · rintro ⟨pre, suf, hsuf⟩
      cases pre with
      | nil =>
        exact Or.inl ⟨suf, by simpa using hsuf⟩
      | cons c2 pre2 =>
        right
        rw [List.cons_append, List.cons_append, List.cons_eq_cons] at hsuf
        exact ⟨pre2, suf, hsuf.2⟩

theorem containsSub_nil_pat (hay : List Char) : containsSub hay [] = true := by
  cases hay with
  | nil => rfl
  | cons c rest => rfl

theorem mem_search_iff (s : Eternalog) (term : List Char) (i : Nat) :
    i ∈ search_logs_by_content s term ↔
      (1 ≤ i ∧ i < s.next_log_id) ∧
        ∃ d, s.log_data i = some d ∧ containsSub d term = true := by
  unfold search_logs_by_content
  rw [List.mem_filter, List.mem_range'_1]
  have hp : ((match s.log_data i with
      | some data => containsSub data term
      | none => false) = true) ↔
      ∃ d, s.log_data i = some d ∧ containsSub d term = true := by
    cases hd : s.log_data i with
    | none => simp
    | some d => simp [hd]
  rw [hp]
  constructor
  · rintro ⟨⟨h1, h2⟩, h3⟩
    exact ⟨⟨h1, by omega⟩, h3⟩
  · rintro ⟨⟨h1, h2⟩, h3⟩
    exact ⟨⟨h1, by omega⟩, h3⟩

theorem search_pairwise (s : Eternalog) (term : List Char) :
    List.Pairwise (· < ·) (search_logs_by_content s term) :=
  List.Pairwise.sublist (List.filter_sublist _) (List.pairwise_lt_range' _ _ _)

theorem reach_sW : Reachable sW :=
  Reachable.store env0 ['a', 'b'] 1 (Reachable.init env0 0)

/-! ### Claim theorems -/

/-- C3: `store_log` validates in a fixed priority order: empty data yields
`EmptyLogData`; otherwise a zero log type yields `InvalidLogType`; otherwise a
payment below the current fee yields `InsufficientBalance`; the call succeeds
exactly when all three checks pass. In particular, when several conditions are
violated simultaneously the highest-priority error is returned. -/
theorem store_log_C3_priority (env : Env) (s : Eternalog) (d : List Char) (lt : Nat) :
    ((store_log env s d lt).1 = Except.error Error.EmptyLogData ↔ d = []) ∧
    ((store_log env s d lt).1 = Except.error Error.InvalidLogType ↔
      d ≠ [] ∧ lt = 0) ∧
    ((store_log env s d lt).1 = Except.error Error.InsufficientBalance ↔
      d ≠ [] ∧ lt ≠ 0 ∧ env.transferredValue < s.storage_fee) ∧
    ((store_log env s d lt).1 = Except.ok s.next_log_id ↔
      d ≠ [] ∧ lt ≠ 0 ∧ ¬ env.transferredValue < s.storage_fee) := by
  unfold store_log
  by_cases hd : d = [] <;> by_cases hlt : lt = 0 <;>
    by_cases hp : env.transferredValue < s.storage_fee <;>
    simp [hd, hlt, hp]

/-- C3 witness: empty data together with a zero type and an insufficient
payment still yields `EmptyLogData`, the highest-priority error. -/
theorem store_log_C3_witness :
    (store_log env0 (Eternalog.new env0 5) [] 0).1 =
      Except.error Error.EmptyLogData :=
  (store_log_C3_priority env0 (Eternalog.new env0 5) [] 0).1.mpr rfl

/-- C4: whenever `store_log` returns an error, the returned state is exactly
the input state: every field (per-entry mappings, both indices, counters, fee,
owner) is unchanged. -/
theorem store_log_C4_error_no_mutation (env : Env) (s : Eternalog) (d : List Char)
    (lt : Nat) (e : Error) (h : (store_log env s d lt).1 = Except.error e) :
    (store_log env s d lt).2 = s :=
  store_log_err_state env s d lt e h

/-- C4 witness: a failing call on a concrete state leaves it unchanged. -/
theorem store_log_C4_witness :
    (store_log env0 (Eternalog.new env0 10) [] 1).2 = Eternalog.new env0 10 :=
  store_log_C4_error_no_mutation env0 (Eternalog.new env0 10) [] 1
    Error.EmptyLogData rfl

/-- C6: after any trace from a fresh contract, `get_total_logs` is the
saturating count of the successful stores and `get_total_fees_burned` is the
saturating sum of the full payments transferred with them; both are
monotonically non-decreasing under further operations. -/
theorem totals_C6 (env : Env) (fee : Balance) (ops : List Op) :
    (get_total_logs (runOps (Eternalog.new env fee) ops).1 =
      ((runOps (Eternalog.new env fee) ops).2).foldl
        (fun acc _ => satAdd64 acc 1) 0) ∧
    (get_total_fees_burned (runOps (Eternalog.new env fee) ops).1 =
      ((runOps (Eternalog.new env fee) ops).2).foldl
        (fun acc r => satAdd128 acc r.env.transferredValue) 0) ∧
    (∀ more : List Op,
      get_total_logs (runOps (Eternalog.new env fee) ops).1 ≤
        get_total_logs (runOps (Eternalog.new env fee) (ops ++ more)).1 ∧
      get_total_fees_burned (runOps (Eternalog.new env fee) ops).1 ≤
        get_total_fees_burned (runOps (Eternalog.new env fee) (ops ++ more)).1) := by
  have htot := runOps_totals ops (Eternalog.new env fee)
  have hbase := runOps_totals_mono ops (Eternalog.new env fee)
    (Nat.zero_le _) (Nat.zero_le _)
  refine ⟨htot.1, htot.2, fun more => ?_⟩
  have hmono := runOps_totals_mono more (runOps (Eternalog.new env fee) ops).1
    hbase.1.2 hbase.2.2
  rw [runOps_fst_append]
  exact ⟨hmono.1.1, hmono.2.1⟩

/-- C7: `update_storage_fee` behaves as an owner-gated unconditional fee
replacement: a non-owner caller gets `Unauthorized` with the state unchanged,
the owner replaces the fee by any value (zero or arbitrarily large); the owner
is the constructing caller and no operation ever changes it. -/
theorem update_storage_fee_C7 (env : Env) (s : Eternalog) (nf : Balance) :
    (update_storage_fee env s nf =
      if env.caller = s.owner then (Except.ok (), { s with storage_fee := nf })
      else (Except.error Error.Unauthorized, s)) ∧
    (∀ ops : List Op, get_owner (runOps s ops).1 = get_owner s) ∧
    (∀ env2 : Env, ∀ fee2 : Balance, get_owner (Eternalog.new env2 fee2) = env2.caller) :=
  ⟨update_fee_cases env s nf, fun ops => runOps_owner ops s, fun _ _ => rfl⟩

/-- C9: `get_logs_by_type_and_author` is exactly the order-preserving
intersection: it filters the type list by membership in the author list, an ID
is in the result iff it is in both lists, and the result is a sublist of the
type list (hence in the type list's order). -/
theorem intersection_C9 (s : Eternalog) (t : Nat) (a : AccountId) :
    (get_logs_by_type_and_author s t a =
      (get_logs_by_type s t).filter
        fun id => decide (id ∈ get_logs_by_author s a)) ∧
    (∀ id, id ∈ get_logs_by_type_and_author s t a ↔
      id ∈ get_logs_by_type s t ∧ id ∈ get_logs_by_author s a) ∧
    List.Sublist (get_logs_by_type_and_author s t a) (get_logs_by_type s t) := by
  refine ⟨?_, ?_, ?_⟩
  · unfold get_logs_by_type_and_author
    refine List.filter_congr ?_
    intro x _
    by_cases h : x ∈ get_logs_by_author s a <;> simp [h, List.elem_iff]
  · intro id
    unfold get_logs_by_type_and_author
    rw [List.mem_filter]
    have : ((get_logs_by_author s a).contains id = true) ↔
        id ∈ get_logs_by_author s a := by
      simp [List.elem_iff]
    rw [this]
  · unfold get_logs_by_type_and_author
    exact List.filter_sublist _

/-- C1 amended: along any trace from a fresh contract in which the ID counter
has not saturated (strictly fewer than `2^64 - 1` successful stores), the IDs
returned by the successful `store_log` calls are strictly increasing, the
first one is 1, and `get_log` on each returned ID yields exactly the stored
data, log type, caller-as-author and creation block number. At the ceiling the
code instead re-returns `u64::MAX` (see the counterexample). -/
theorem store_log_C1_amended (env : Env) (fee : Balance) (ops : List Op)
    (hns : (runOps (Eternalog.new env fee) ops).1.next_log_id < U64MAX) :
    List.Pairwise (· < ·)
      (((runOps (Eternalog.new env fee) ops).2).map StoreRecord.id) ∧
    (∀ r, ((runOps (Eternalog.new env fee) ops).2).head? = some r → r.id = 1) ∧
    (∀ r ∈ (runOps (Eternalog.new env fee) ops).2,
      get_log (runOps (Eternalog.new env fee) ops).1 r.id =
        Except.ok { id := r.id, data := r.data, log_type := r.log_type,
                    author := r.env.caller, timestamp := r.env.blockNumber }) := by
  obtain ⟨c1, c2, c3, c4, c5, c6⟩ := runOps_spec ops (Eternalog.new env fee)
    (goodState_new env fee) hns
  refine ⟨List.pairwise_map.mpr c5, ?_, ?_⟩
  · intro r hr
    exact c6 r hr
  · intro r hr
    obtain ⟨q1, q2, q3, q4, q5, q6⟩ := c4 r hr
    unfold get_log
    rw [q3, q4, q5, q6]

/-- C1 witness: a concrete two-store trace below the ceiling. -/
theorem store_log_C1_witness :
    (runOps (Eternalog.new env0 0) wOps).1.next_log_id < U64MAX ∧
    List.Pairwise (· < ·)
      (((runOps (Eternalog.new env0 0) wOps).2).map StoreRecord.id) :=
  ⟨by decide, (store_log_C1_amended env0 0 wOps (by decide)).1⟩

/-- C1 counterexample: a trace of `2^64` valid store calls from a fresh
zero-fee contract on which every call succeeds, yet the sequence of returned
IDs is not strictly increasing: the saturated counter re-returns `u64::MAX`. -/
theorem store_log_C1_cex :
    (((runOps (Eternalog.new env0 0) (repOps (U64MAX + 1))).2).map
        StoreRecord.id).length = U64MAX + 1 ∧
    ¬ List.Pairwise (· < ·)
      (((runOps (Eternalog.new env0 0) (repOps (U64MAX + 1))).2).map
        StoreRecord.id) := by
  have hrep := runOps_rep (U64MAX + 1) (Eternalog.new env0 0) rfl
  have hn1 : (Eternalog.new env0 0).next_log_id = 1 := rfl
  rw [hrep, hn1]
  refine ⟨idSeq_length _ _, fun hp => ?_⟩
  have hb := idSeq_pairwise_bound (U64MAX + 1) 1 (by simp only [U64MAX]; omega) hp
  omega

/-- C2 amended: in every reachable state in which the ID counter has not
saturated, an ID is in `logs_by_type[t]` iff the stored entry with that ID has
`log_type = t`, and symmetrically for `logs_by_author`; every index bucket is
strictly ascending, i.e. in creation order. Unconditionally, a `store_log`
either leaves a bucket unchanged or appends the new ID at its end, and
`update_storage_fee` never touches a bucket (no ID is ever removed). -/
theorem index_C2_amended :
    (∀ s : Eternalog, Reachable s → s.next_log_id < U64MAX →
      (∀ t id, id ∈ get_logs_by_type s t ↔ s.log_types id = some t) ∧
      (∀ a id, id ∈ get_logs_by_author s a ↔ s.log_authors id = some a) ∧
      (∀ t, List.Pairwise (· < ·) (get_logs_by_type s t)) ∧
      (∀ a, List.Pairwise (· < ·) (get_logs_by_author s a))) ∧
    (∀ env s d lt t,
      get_logs_by_type (store_log env s d lt).2 t = get_logs_by_type s t ∨
      get_logs_by_type (store_log env s d lt).2 t =
        get_logs_by_type s t ++ [s.next_log_id]) ∧
    (∀ env s d lt a,
      get_logs_by_author (store_log env s d lt).2 a = get_logs_by_author s a ∨
      get_logs_by_author (store_log env s d lt).2 a =
        get_logs_by_author s a ++ [s.next_log_id]) ∧
    (∀ env s nf t,
      get_logs_by_type (update_storage_fee env s nf).2 t = get_logs_by_type s t) ∧
    (∀ env s nf a,
      get_logs_by_author (update_storage_fee env s nf).2 a =
        get_logs_by_author s a) := by
  refine ⟨?_, ?_, ?_, ?_, ?_⟩
  · intro s hs hns
    obtain ⟨hi1, hi2, hi3, hi4, hi5, hi6, hi7⟩ := reachable_inv s hs hns
    exact ⟨hi4, hi5, hi6, hi7⟩
  · intro env s d lt t
    by_cases hd : d = []
    · exact Or.inl (by rw [(store_log_invalid env s d lt (Or.inl hd)).1])
    by_cases hlt : lt = 0
    · exact Or.inl
        (by rw [(store_log_invalid env s d lt (Or.inr (Or.inl hlt))).1])
    by_cases hp : env.transferredValue < s.storage_fee
    · exact Or.inl
        (by rw [(store_log_invalid env s d lt (Or.inr (Or.inr hp))).1])
    rw [store_log_of_valid env s d lt hd hlt hp]
    unfold get_logs_by_type
    by_cases ht : t = lt
    · right
      simp [ht]
    · left
      simp only [if_neg ht]
  · intro env s d lt a
    by_cases hd : d = []
    · exact Or.inl (by rw [(store_log_invalid env s d lt (Or.inl hd)).1])
    by_cases hlt : lt = 0
    · exact Or.inl
        (by rw [(store_log_invalid env s d lt (Or.inr (Or.inl hlt))).1])
    by_cases hp : env.transferredValue < s.storage_fee
    · exact Or.inl
        (by rw [(store_log_invalid env s d lt (Or.inr (Or.inr hp))).1])
    rw [store_log_of_valid env s d lt hd hlt hp]
    unfold get_logs_by_author
    by_cases ha : a = env.caller
    · right
      simp [ha]
    · left
      simp only [if_neg ha]
  · intro env s nf t
    unfold get_logs_by_type
    rw [(update_fee_only env s nf).2.2.2.2.2.2.2.2.1]
  · intro env s nf a
    unfold get_logs_by_author
    rw [(update_fee_only env s nf).2.2.2.2.2.2.2.2.2]

/-- C2 witness: the invariant instantiated at a concrete reachable state. -/
theorem index_C2_witness :
    sW.next_log_id < U64MAX ∧
    (1 ∈ get_logs_by_type sW 1 ↔ sW.log_types 1 = some 1) :=
  ⟨by decide, (index_C2_amended.1 sW reach_sW (by decide)).1 1 1⟩

/-- C2 counterexample: after `2^64 - 1` valid type-1 stores and one further
valid type-2 store, the reachable state has `u64::MAX` in the type-1 index
bucket while the stored entry with that ID has `log_type = 2` -- the
iff-invariant fails once the saturated counter re-assigns an ID. -/
theorem index_C2_cex :
    Reachable (store_log env0 sA ['x'] 2).2 ∧
    U64MAX ∈ get_logs_by_type (store_log env0 sA ['x'] 2).2 1 ∧
    ((store_log env0 sA ['x'] 2).2).log_types U64MAX = some 2 ∧
    ¬ ((store_log env0 sA ['x'] 2).2).log_types U64MAX = some 1 := by
  refine ⟨reach_sBad, ?_, sBad_types_max, ?_⟩
  · unfold get_logs_by_type
    rw [sBad_bucket1]
    exact sA_bucket1_max
  · rw [sBad_types_max]
    simp

/-- C5: the code does not fail at the numeric ceiling. In the reachable state
reached by `2^64 - 1` successful stores the counter is saturated at `u64::MAX`
and the entry `u64::MAX` is already stored, yet a further valid `store_log`
call succeeds, re-returns the already-used ID `u64::MAX`, and leaves the
counter at `u64::MAX` -- contradicting the claim that further stores must
fail rather than re-assign a used ID. -/
theorem store_log_C5_ceiling_bug :
    Reachable sA ∧ sA.next_log_id = U64MAX ∧
    sA.log_types U64MAX = some 1 ∧
    (store_log env0 sA ['x'] 1).1 = Except.ok U64MAX ∧
    ((store_log env0 sA ['x'] 1).2).next_log_id = U64MAX := by
  refine ⟨reach_sA, sA_next, sA_log_types_max, ?_, ?_⟩
  · rw [store_env0_valid sA 1 one_ne_zero sA_fee]
    simp [sA_next]
  · rw [store_env0_valid sA 1 one_ne_zero sA_fee]
    show satAdd64 sA.next_log_id 1 = U64MAX
    rw [sA_next]
    simp only [satAdd64, U64MAX]
    omega

/-- C8 amended: in any reachable state whose ID counter has not saturated,
`search_logs_by_content(term)` returns exactly the IDs of the stored entries
whose data contains `term` as a contiguous substring (an entry matches iff its
data splits as `pre ++ term ++ suf`), in strictly ascending ID order; an
absent term yields the empty list. At the saturated ceiling the re-assigned
ID `u64::MAX` is wrongly excluded from the scan (see the counterexample). -/
theorem search_C8_amended (s : Eternalog) (term : List Char) (hs : Reachable s)
    (hns : s.next_log_id < U64MAX) :
    (∀ i, i ∈ search_logs_by_content s term ↔
      ∃ d, s.log_data i = some d ∧ ∃ pre suf, d = pre ++ term ++ suf) ∧
    List.Pairwise (· < ·) (search_logs_by_content s term) := by
  obtain ⟨hi1, hi2, hi3, hi4, hi5, hi6, hi7⟩ := reachable_inv s hs hns
  refine ⟨fun i => ?_, search_pairwise s term⟩
  rw [mem_search_iff]
  constructor
  · rintro ⟨hb, d, hd, hc⟩
    exact ⟨d, hd, (containsSub_iff d term).mp hc⟩
  · rintro ⟨d, hd, hsub⟩
    have hbound : 1 ≤ i ∧ i < s.next_log_id := by
      by_contra hc
      have hor : i = 0 ∨ s.next_log_id ≤ i := by omega
      rw [(hi3 i hor).1] at hd
      exact Option.noConfusion hd
    exact ⟨hbound, d, hd, (containsSub_iff d term).mpr hsub⟩

/-- C8 witness: the characterization instantiated at a concrete reachable
state with one stored entry "ab" and the term "b". -/
theorem search_C8_witness :
    sW.next_log_id < U64MAX ∧
    (1 ∈ search_logs_by_content sW ['b'] ↔
      ∃ d, sW.log_data 1 = some d ∧ ∃ pre suf, d = pre ++ ['b'] ++ suf) :=
  ⟨by decide, (search_C8_amended sW ['b'] reach_sW (by decide)).1 1⟩

/-- C8 counterexample: in the reachable saturated state `sA` the entry
`u64::MAX` is stored with data "x", which contains the search term "x", yet
the search result omits it, because the scan runs over `1..next_log_id`
exclusive and `next_log_id` equals the stored ID `u64::MAX`. -/
theorem search_C8_cex :
    Reachable sA ∧ sA.log_data U64MAX = some ['x'] ∧
    containsSub ['x'] ['x'] = true ∧
    U64MAX ∉ search_logs_by_content sA ['x'] := by
  refine ⟨reach_sA, sA_log_data_max, by decide, ?_⟩
  intro hmem
  rw [mem_search_iff] at hmem
  have hlt := hmem.1.2
  rw [sA_next] at hlt
  exact lt_irrefl _ hlt

/-- C10 amended: the empty search term is not special-cased and matches every
entry, so in any reachable state whose ID counter has not saturated,
`search_logs_by_content ""` returns exactly the IDs of all stored entries in
ascending ID order. At the saturated ceiling the entry `u64::MAX` is excluded
(see the counterexample). -/
theorem search_empty_C10_amended (s : Eternalog) (hs : Reachable s)
    (hns : s.next_log_id < U64MAX) :
    (∀ i, i ∈ search_logs_by_content s [] ↔ ∃ d, s.log_data i = some d) ∧
    List.Pairwise (· < ·) (search_logs_by_content s []) := by
  obtain ⟨hi1, hi2, hi3, hi4, hi5, hi6, hi7⟩ := reachable_inv s hs hns
  refine ⟨fun i => ?_, search_pairwise s []⟩
  rw [mem_search_iff]
  constructor
  · rintro ⟨hb, d, hd, _⟩
    exact ⟨d, hd⟩
  · rintro ⟨d, hd⟩
    have hbound : 1 ≤ i ∧ i < s.next_log_id := by
      by_contra hc
      have hor : i = 0 ∨ s.next_log_id ≤ i := by omega
      rw [(hi3 i hor).1] at hd
      exact Option.noConfusion hd
    exact ⟨hbound, d, hd, containsSub_nil_pat d⟩

/-- C10 witness: the empty-term characterization instantiated at a concrete
reachable state. -/
theorem search_empty_C10_witness :
    sW.next_log_id < U64MAX ∧
    (1 ∈ search_logs_by_content sW [] ↔ ∃ d, sW.log_data 1 = some d) :=
  ⟨by decide, (search_empty_C10_amended sW reach_sW (by decide)).1 1⟩

/-- C10 counterexample: in the reachable saturated state `sA` the entry
`u64::MAX` is stored, but the empty-term search omits it. -/
theorem search_empty_C10_cex :
    Reachable sA ∧ sA.log_data U64MAX = some ['x'] ∧
    U64MAX ∉ search_logs_by_content sA [] := by
  refine ⟨reach_sA, sA_log_data_max, ?_⟩
  intro hmem
  rw [mem_search_iff] at hmem
  have hlt := hmem.1.2
  rw [sA_next] at hlt
  exact lt_irrefl _ hlt
